import Mathlib

/-!
# Verification of the ArtifactGenerator core (src/main.py)

Shallow embedding of the program's pure core:

* `ConfigComparator.compare` / `ConfigComparator.apply_delta` — the flat
  configuration differ/patcher.  Python `dict`s are modelled as association
  lists (`Config α`), looked up by first occurrence; the nondeterministic
  iteration order of `set(config) | set(patched_config)` is modelled by an
  explicit key-enumeration parameter `ks`.
* multiplicity parsing `s.split("..")[0]` / `s.split("..")[-1]` from
  `ModelParser.parse`, modelled on `List Char` with a faithful Python-style
  non-overlapping left-to-right split.
* `ModelParser` second pass (aggregation resolution), `ConfigXmlGenerator`
  (tree serialisation, with a fuel argument standing for Python's unbounded
  recursion) and `MetaJsonGenerator` (metadata projection).

File reading/writing, XML/JSON text encoding and the CLI `main` are the
excluded I/O wrappers; the embedding covers the data transformations.
-/

set_option autoImplicit false

universe u

/-! ## Flat configuration maps (Python `dict`) -/

/-- A Python `dict` with string keys, as an association list.  The dict
invariant (no duplicate keys) is not baked into the type; lookups read the
first matching entry, as `dict` semantics require. -/
abbrev Config (α : Type u) : Type u := List (String × α)

/-- `d.get(k)` / `d[k]` as a total lookup: first entry with key `k`. -/
def getVal {α : Type u} (k : String) : Config α → Option α
  | [] => none
  | p :: rest => if p.1 = k then some p.2 else getVal k rest

/-- Python `k in d`. -/
def hasKey {α : Type u} (k : String) (c : Config α) : Bool :=
  (getVal k c).isSome

/-- Python `del d[k]` (guarded by `if k in d` in the source, so absent keys
are a no-op — which removal-by-recursion gives us for free). -/
def eraseKey {α : Type u} (k : String) : Config α → Config α
  | [] => []
  | p :: rest => if p.1 = k then eraseKey k rest else p :: eraseKey k rest

/-- Python `d[k] = v`: overwrite in place when the key exists, append
otherwise. -/
def setKey {α : Type u} (k : String) (v : α) : Config α → Config α
  | [] => [(k, v)]
  | p :: rest => if p.1 = k then (k, v) :: rest else p :: setKey k v rest

/-- The three-bucket delta returned by `ConfigComparator.compare`:
`additions` holds `{"key": k, "value": v}` records, `deletions` bare keys,
`updates` `{"key": k, "from": f, "to": t}` records. -/
structure Delta (α : Type u) : Type u where
  additions : List (String × α)
  deletions : List String
  updates : List (String × α × α)
  deriving DecidableEq, Repr

namespace ConfigComparator

variable {α : Type u} [DecidableEq α]

/-- `ConfigComparator.compare` (src/main.py lines 138–169).  The loop
`for key in set(config) | set(patched_config)` is modelled by iterating the
explicit enumeration `ks`; each key is classified by the source's
`if/elif/elif` chain.  Keys outside both maps never occur in the source's
enumeration (it is exactly the union), so the last match arm is dead code
there. -/
def compare (ks : List String) (config patched_config : Config α) : Delta α :=
  match ks with
  | [] => ⟨[], [], []⟩
  | k :: rest =>
    let d := compare rest config patched_config
    match getVal k config, getVal k patched_config with
    | none, some v => ⟨(k, v) :: d.additions, d.deletions, d.updates⟩
    | some _, none => ⟨d.additions, k :: d.deletions, d.updates⟩
    | some vb, some vp =>
      if vb ≠ vp then ⟨d.additions, d.deletions, (k, vb, vp) :: d.updates⟩ else d
    | none, none => d

/-- `ConfigComparator.apply_delta` (src/main.py lines 171–188): copy the
base, apply deletions, then updates, then additions. -/
def apply_delta (config : Config α) (delta : Delta α) : Config α :=
  let r1 := delta.deletions.foldl (fun c k => eraseKey k c) config
  let r2 := delta.updates.foldl (fun c u => setKey u.1 u.2.2 c) r1
  delta.additions.foldl (fun c a => setKey a.1 a.2 c) r2

end ConfigComparator

/-! ### Lookup lemmas -/

theorem getVal_eraseKey {α : Type u} (k k' : String) (c : Config α) :
    getVal k' (eraseKey k c) = if k = k' then none else getVal k' c := by
  induction c with
  | nil => simp [eraseKey, getVal]
  | cons p rest ih =>
    simp only [eraseKey]
    by_cases h1 : p.1 = k
    · rw [if_pos h1, ih]
      by_cases h2 : k = k'
      · simp [h2]
      · have hp : ¬ p.1 = k' := fun he => h2 (h1.symm.trans he)
        simp only [if_neg h2, getVal, if_neg hp]
    · rw [if_neg h1]
      simp only [getVal]
      by_cases h2 : p.1 = k'
      · have hkk : ¬ k = k' := fun he => h1 (by rw [he]; exact h2)
        simp only [if_pos h2, if_neg hkk, getVal, if_pos h2]
      · simp only [if_neg h2, ih]

theorem getVal_setKey {α : Type u} (k k' : String) (v : α) (c : Config α) :
    getVal k' (setKey k v c) = if k = k' then some v else getVal k' c := by
  induction c with
  | nil => simp [setKey, getVal]
  | cons p rest ih =>
    simp only [setKey]
    by_cases h1 : p.1 = k
    · rw [if_pos h1]
      simp only [getVal]
      by_cases h2 : k = k'
      · simp [h2]
      · have hp : ¬ p.1 = k' := fun he => h2 (h1.symm.trans he)
        simp only [if_neg h2, if_neg hp]
    · rw [if_neg h1]
      simp only [getVal]
      by_cases h2 : p.1 = k'
      · have hkk : ¬ k = k' := fun he => h1 (by rw [he]; exact h2)
        simp only [if_pos h2, if_neg hkk, getVal, if_pos h2]
      · simp only [if_neg h2, ih]

theorem hasKey_iff_mem_keys {α : Type u} (k : String) (c : Config α) :
    hasKey k c = true ↔ k ∈ c.map Prod.fst := by
  induction c with
  | nil => simp [hasKey, getVal]
  | cons p rest ih =>
    simp only [hasKey, getVal, List.map_cons, List.mem_cons]
    by_cases h : p.1 = k
    · rw [if_pos h]
      constructor
      · intro _; exact Or.inl h.symm
      · intro _; rfl
    · rw [if_neg h]
      rw [hasKey] at ih
      rw [ih]
      constructor
      · intro hm; exact Or.inr hm
      · rintro (he | hm)
        · exact absurd he.symm h
        · exact hm

/-! ### Fold lemmas for `apply_delta` -/

theorem getVal_eraseFold_not_mem {α : Type u} (dels : List String) (c : Config α)
    (k : String) (h : k ∉ dels) :
    getVal k (dels.foldl (fun c k => eraseKey k c) c) = getVal k c := by
  induction dels generalizing c with
  | nil => rfl
  | cons d rest ih =>
    have hd : d ≠ k := fun he => h (he ▸ List.mem_cons_self d rest)
    have hr : k ∉ rest := fun hm => h (List.mem_cons_of_mem d hm)
    simp only [List.foldl_cons]
    rw [ih _ hr, getVal_eraseKey, if_neg hd]

theorem getVal_eraseFold_none {α : Type u} (dels : List String) (c : Config α)
    (k : String) (h : getVal k c = none) :
    getVal k (dels.foldl (fun c k => eraseKey k c) c) = none := by
  induction dels generalizing c with
  | nil => exact h
  | cons d rest ih =>
    simp only [List.foldl_cons]
    apply ih
    rw [getVal_eraseKey]
    split <;> simp [h]

theorem getVal_eraseFold_mem {α : Type u} (dels : List String) (c : Config α)
    (k : String) (h : k ∈ dels) :
    getVal k (dels.foldl (fun c k => eraseKey k c) c) = none := by
  induction dels generalizing c with
  | nil => cases h
  | cons d rest ih =>
    simp only [List.foldl_cons]
    by_cases hd : k ∈ rest
    · exact ih _ hd
    · have : d = k := by
        rcases List.mem_cons.mp h with h1 | h2
        · exact h1.symm
        · exact absurd h2 hd
      apply getVal_eraseFold_none
      rw [getVal_eraseKey, if_pos this]

theorem getVal_setFold_not_mem {α : Type u} (l : List (String × α)) (c : Config α)
    (k : String) (h : k ∉ l.map Prod.fst) :
    getVal k (l.foldl (fun c a => setKey a.1 a.2 c) c) = getVal k c := by
  induction l generalizing c with
  | nil => rfl
  | cons p rest ih =>
    have hp : p.1 ≠ k := by
      intro he; exact h (by simp [he])
    have hr : k ∉ rest.map Prod.fst := by
      intro hm; exact h (by simp [List.mem_map] at hm ⊢; right; exact hm)
    simp only [List.foldl_cons]
    rw [ih _ hr, getVal_setKey, if_neg hp]

theorem getVal_setFold_const {α : Type u} (l : List (String × α)) (c : Config α)
    (k : String) (v : α) (hall : ∀ p ∈ l, p.1 = k → p.2 = v)
    (hc : getVal k c = some v) :
    getVal k (l.foldl (fun c a => setKey a.1 a.2 c) c) = some v := by
  induction l generalizing c with
  | nil => exact hc
  | cons p rest ih =>
    simp only [List.foldl_cons]
    refine ih _ (fun q hq hq1 => hall q (List.mem_cons_of_mem p hq) hq1) ?_
    rw [getVal_setKey]
    by_cases hp : p.1 = k
    · rw [if_pos hp, hall p (List.mem_cons_self p rest) hp]
    · rw [if_neg hp, hc]

theorem getVal_setFold_mem {α : Type u} (l : List (String × α)) (c : Config α)
    (k : String) (v : α) (hmem : k ∈ l.map Prod.fst)
    (hall : ∀ p ∈ l, p.1 = k → p.2 = v) :
    getVal k (l.foldl (fun c a => setKey a.1 a.2 c) c) = some v := by
  induction l generalizing c with
  | nil => cases hmem
  | cons p rest ih =>
    simp only [List.foldl_cons]
    by_cases hp : p.1 = k
    · apply getVal_setFold_const
      · intro q hq hq1; exact hall q (List.mem_cons_of_mem p hq) hq1
      · rw [getVal_setKey, if_pos hp, hall p (List.mem_cons_self p rest) hp]
    · have : k ∈ rest.map Prod.fst := by
        rcases List.mem_map.mp hmem with ⟨q, hq, hq1⟩
        rcases List.mem_cons.mp hq with h1 | h2
        · exact absurd (h1 ▸ hq1) hp
        · exact List.mem_map.mpr ⟨q, h2, hq1⟩
      exact ih _ this (fun q hq hq1 => hall q (List.mem_cons_of_mem p hq) hq1)

theorem updFold_eq_setFold {α : Type u} (U : List (String × α × α)) (c : Config α) :
    U.foldl (fun c u => setKey u.1 u.2.2 c) c
      = (U.map (fun u => (u.1, u.2.2))).foldl (fun c a => setKey a.1 a.2 c) c := by
  induction U generalizing c with
  | nil => rfl
  | cons u rest ih => simp only [List.foldl_cons, List.map_cons]; exact ih _

theorem mem_map_fst {β : Type u} (l : List (String × β)) (k : String) :
    k ∈ l.map Prod.fst ↔ ∃ v, (k, v) ∈ l := by
  constructor
  · intro h
    rcases List.mem_map.mp h with ⟨q, hq, hq1⟩
    exact ⟨q.2, by rw [← hq1]; exact hq⟩
  · rintro ⟨v, hv⟩
    exact List.mem_map.mpr ⟨(k, v), hv, rfl⟩

/-! ### Unfolding `compare` one key at a time -/

section CompareUnfold

variable {α : Type u} [DecidableEq α] (k : String) (rest : List String)
variable (b p : Config α)

theorem compare_cons_add {v : α} (h1 : getVal k b = none) (h2 : getVal k p = some v) :
    ConfigComparator.compare (k :: rest) b p =
      ⟨(k, v) :: (ConfigComparator.compare rest b p).additions,
        (ConfigComparator.compare rest b p).deletions,
        (ConfigComparator.compare rest b p).updates⟩ := by
  simp only [ConfigComparator.compare, h1, h2]

theorem compare_cons_del {vb : α} (h1 : getVal k b = some vb) (h2 : getVal k p = none) :
    ConfigComparator.compare (k :: rest) b p =
      ⟨(ConfigComparator.compare rest b p).additions,
        k :: (ConfigComparator.compare rest b p).deletions,
        (ConfigComparator.compare rest b p).updates⟩ := by
  simp only [ConfigComparator.compare, h1, h2]

theorem compare_cons_upd {vb vp : α} (h1 : getVal k b = some vb) (h2 : getVal k p = some vp)
    (hne : vb ≠ vp) :
    ConfigComparator.compare (k :: rest) b p =
      ⟨(ConfigComparator.compare rest b p).additions,
        (ConfigComparator.compare rest b p).deletions,
        (k, vb, vp) :: (ConfigComparator.compare rest b p).updates⟩ := by
  simp only [ConfigComparator.compare, h1, h2, if_pos hne]

theorem compare_cons_same {vb : α} (h1 : getVal k b = some vb) (h2 : getVal k p = some vb) :
    ConfigComparator.compare (k :: rest) b p = ConfigComparator.compare rest b p := by
  simp only [ConfigComparator.compare, h1, h2, ne_eq, not_true_eq_false, if_false]

theorem compare_cons_absent (h1 : getVal k b = none) (h2 : getVal k p = none) :
    ConfigComparator.compare (k :: rest) b p = ConfigComparator.compare rest b p := by
  simp only [ConfigComparator.compare, h1, h2]

end CompareUnfold

/-! ### Bucket characterisation: each bucket is the key enumeration,
filtered by its classification condition, in enumeration order. -/

/-- Classification condition of the `additions` bucket, per key. -/
def addFun {α : Type u} (b p : Config α) (k : String) : Option (String × α) :=
  match getVal k b, getVal k p with
  | none, some v => some (k, v)
  | _, _ => none

/-- Classification condition of the `deletions` bucket, per key. -/
def delFun {α : Type u} (b p : Config α) (k : String) : Bool :=
  (getVal k b).isSome && (getVal k p).isNone

/-- Classification condition of the `updates` bucket, per key. -/
def updFun {α : Type u} [DecidableEq α] (b p : Config α) (k : String) :
    Option (String × α × α) :=
  match getVal k b, getVal k p with
  | some vb, some vp => if vb ≠ vp then some (k, vb, vp) else none
  | _, _ => none

theorem compare_additions_eq {α : Type u} [DecidableEq α] (ks : List String)
    (b p : Config α) :
    (ConfigComparator.compare ks b p).additions = ks.filterMap (addFun b p) := by
  induction ks with
  | nil => rfl
  | cons k rest ih =>
    rcases h1 : getVal k b with _ | vb <;> rcases h2 : getVal k p with _ | vp
    · rw [compare_cons_absent k rest b p h1 h2, List.filterMap_cons]
      simp [addFun, h1, h2, ih]
    · rw [compare_cons_add k rest b p h1 h2, List.filterMap_cons]
      simp [addFun, h1, h2, ih]
    · rw [compare_cons_del k rest b p h1 h2, List.filterMap_cons]
      simp [addFun, h1, h2, ih]
    · by_cases hne : vb = vp
      · subst hne
        rw [compare_cons_same k rest b p h1 h2, List.filterMap_cons]
        simp [addFun, h1, h2, ih]
      · rw [compare_cons_upd k rest b p h1 h2 hne, List.filterMap_cons]
        simp [addFun, h1, h2, hne, ih]

theorem compare_deletions_eq {α : Type u} [DecidableEq α] (ks : List String)
    (b p : Config α) :
    (ConfigComparator.compare ks b p).deletions = ks.filter (delFun b p) := by
  induction ks with
  | nil => rfl
  | cons k rest ih =>
    rcases h1 : getVal k b with _ | vb <;> rcases h2 : getVal k p with _ | vp
    · rw [compare_cons_absent k rest b p h1 h2, List.filter_cons]
      simp [delFun, h1, h2, ih]
    · rw [compare_cons_add k rest b p h1 h2, List.filter_cons]
      simp [delFun, h1, h2, ih]
    · rw [compare_cons_del k rest b p h1 h2, List.filter_cons]
      simp [delFun, h1, h2, ih]
    · by_cases hne : vb = vp
      · subst hne
        rw [compare_cons_same k rest b p h1 h2, List.filter_cons]
        simp [delFun, h1, h2, ih]
      · rw [compare_cons_upd k rest b p h1 h2 hne, List.filter_cons]
        simp [delFun, h1, h2, hne, ih]

theorem compare_updates_eq {α : Type u} [DecidableEq α] (ks : List String)
    (b p : Config α) :
    (ConfigComparator.compare ks b p).updates = ks.filterMap (updFun b p) := by
  induction ks with
  | nil => rfl
  | cons k rest ih =>
    rcases h1 : getVal k b with _ | vb <;> rcases h2 : getVal k p with _ | vp
    · rw [compare_cons_absent k rest b p h1 h2, List.filterMap_cons]
      simp [updFun, h1, h2, ih]
    · rw [compare_cons_add k rest b p h1 h2, List.filterMap_cons]
      simp [updFun, h1, h2, ih]
    · rw [compare_cons_del k rest b p h1 h2, List.filterMap_cons]
      simp [updFun, h1, h2, ih]
    · by_cases hne : vb = vp
      · subst hne
        rw [compare_cons_same k rest b p h1 h2, List.filterMap_cons]
        simp [updFun, h1, h2, ih]
      · rw [compare_cons_upd k rest b p h1 h2 hne, List.filterMap_cons]
        simp [updFun, h1, h2, hne, ih]

/-! ### Bucket membership -/

theorem mem_compare_additions {α : Type u} [DecidableEq α] (ks : List String)
    (b p : Config α) (k : String) (v : α) :
    (k, v) ∈ (ConfigComparator.compare ks b p).additions ↔
      k ∈ ks ∧ getVal k b = none ∧ getVal k p = some v := by
  rw [compare_additions_eq, List.mem_filterMap]
  constructor
  · rintro ⟨a, ha, hf⟩
    rcases h1 : getVal a b with _ | vb <;> rcases h2 : getVal a p with _ | vp <;>
      simp [addFun, h1, h2] at hf
    rcases hf with ⟨hk, hv⟩
    subst hk; subst hv
    exact ⟨ha, h1, h2⟩
  · rintro ⟨hm, hb, hp⟩
    refine ⟨k, hm, ?_⟩
    simp [addFun, hb, hp]

theorem mem_compare_deletions {α : Type u} [DecidableEq α] (ks : List String)
    (b p : Config α) (k : String) :
    k ∈ (ConfigComparator.compare ks b p).deletions ↔
      k ∈ ks ∧ (getVal k b).isSome = true ∧ getVal k p = none := by
  rw [compare_deletions_eq, List.mem_filter]
  constructor
  · rintro ⟨hm, hf⟩
    rw [delFun, Bool.and_eq_true] at hf
    exact ⟨hm, hf.1, Option.isNone_iff_eq_none.mp hf.2⟩
  · rintro ⟨hm, hb, hp⟩
    exact ⟨hm, by rw [delFun, Bool.and_eq_true]; exact ⟨hb, by simp [hp]⟩⟩

theorem mem_compare_updates {α : Type u} [DecidableEq α] (ks : List String)
    (b p : Config α) (k : String) (f t : α) :
    (k, f, t) ∈ (ConfigComparator.compare ks b p).updates ↔
      k ∈ ks ∧ getVal k b = some f ∧ getVal k p = some t ∧ f ≠ t := by
  rw [compare_updates_eq, List.mem_filterMap]
  constructor
  · rintro ⟨a, ha, hf⟩
    rcases h1 : getVal a b with _ | vb <;> rcases h2 : getVal a p with _ | vp <;>
      simp [updFun, h1, h2] at hf
    rcases hf with ⟨hne, hk, hv1, hv2⟩
    subst hk; subst hv1; subst hv2
    exact ⟨ha, h1, h2, hne⟩
  · rintro ⟨hm, hb, hp, hne⟩
    refine ⟨k, hm, ?_⟩
    simp [updFun, hb, hp, hne]

/-! ### Folding the updates bucket -/

theorem getVal_updFold_not_mem {α : Type u} (U : List (String × α × α)) (c : Config α)
    (k : String) (h : ∀ f t, (k, f, t) ∉ U) :
    getVal k (U.foldl (fun c u => setKey u.1 u.2.2 c) c) = getVal k c := by
  rw [updFold_eq_setFold]
  apply getVal_setFold_not_mem
  rw [mem_map_fst]
  rintro ⟨v, hv⟩
  rcases List.mem_map.mp hv with ⟨u, hu, hue⟩
  have hk : u.1 = k := congrArg Prod.fst hue
  have hu' : (u.1, u.2.1, u.2.2) ∈ U := by simpa [Prod.mk.eta] using hu
  rw [hk] at hu'
  exact h u.2.1 u.2.2 hu'

theorem getVal_updFold_mem {α : Type u} (U : List (String × α × α)) (c : Config α)
    (k : String) (t : α) (hmem : ∃ f, (k, f, t) ∈ U)
    (hall : ∀ f t', (k, f, t') ∈ U → t' = t) :
    getVal k (U.foldl (fun c u => setKey u.1 u.2.2 c) c) = some t := by
  rw [updFold_eq_setFold]
  apply getVal_setFold_mem
  · rw [mem_map_fst]
    rcases hmem with ⟨f, hf⟩
    exact ⟨t, List.mem_map.mpr ⟨(k, f, t), hf, rfl⟩⟩
  · rintro q hq hq1
    rcases List.mem_map.mp hq with ⟨u, hu, hue⟩
    have hk : u.1 = k := by rw [← hue] at hq1; exact hq1
    have hu' : (u.1, u.2.1, u.2.2) ∈ U := by simpa [Prod.mk.eta] using hu
    rw [hk] at hu'
    have ht := hall u.2.1 u.2.2 hu'
    have hq2 : q.2 = u.2.2 := by rw [← hue]
    rw [hq2, ht]

/-! ## Claim C1: diff/patch round trip -/

/-- **C1.**  For all flat mappings `base` and `patched`, applying the delta
computed by `ConfigComparator.compare` back onto `base` with
`ConfigComparator.apply_delta` (deletions first, then updates, then
additions) reconstructs `patched` exactly: the two maps agree on every key
(which is Python dict equality `==`).  `ks` is any enumeration of the
iteration order of `set(base) | set(patched)`: the hypotheses say it covers
every key of `base` and of `patched`, which the set union does. -/
theorem compare_apply_delta_roundTrip {α : Type u} [DecidableEq α]
    (base patched : Config α) (ks : List String)
    (hb : ∀ k ∈ base.map Prod.fst, k ∈ ks)
    (hp : ∀ k ∈ patched.map Prod.fst, k ∈ ks) :
    ∀ k, getVal k (ConfigComparator.apply_delta base
        (ConfigComparator.compare ks base patched)) = getVal k patched := by
  intro k
  simp only [ConfigComparator.apply_delta]
  rcases h1 : getVal k base with _ | vb <;> rcases h2 : getVal k patched with _ | vp
  · -- key in neither map: untouched by every phase
    have had : k ∉ (ConfigComparator.compare ks base patched).additions.map Prod.fst := by
      rw [mem_map_fst]
      rintro ⟨v, hv⟩
      rw [mem_compare_additions] at hv
      have hvv := hv.2.2
      rw [h2] at hvv
      exact Option.noConfusion hvv
    have hupd : ∀ f t, (k, f, t) ∉ (ConfigComparator.compare ks base patched).updates := by
      intro f t hm
      rw [mem_compare_updates] at hm
      have hvv := hm.2.1
      rw [h1] at hvv
      exact Option.noConfusion hvv
    have hdel : k ∉ (ConfigComparator.compare ks base patched).deletions := by
      intro hm
      rw [mem_compare_deletions] at hm
      have hvv := hm.2.1
      rw [h1] at hvv
      exact Bool.noConfusion hvv
    rw [getVal_setFold_not_mem _ _ _ had, getVal_updFold_not_mem _ _ _ hupd,
      getVal_eraseFold_not_mem _ _ _ hdel]
    exact h1
  · -- key only in `patched`: reinstated by the additions phase
    have hkp : k ∈ ks := hp k ((hasKey_iff_mem_keys k patched).mp (by simp [hasKey, h2]))
    apply getVal_setFold_mem
    · rw [mem_map_fst]
      exact ⟨vp, (mem_compare_additions ks base patched k vp).mpr ⟨hkp, h1, h2⟩⟩
    · rintro q hq hq1
      have hq' : (k, q.2) ∈ (ConfigComparator.compare ks base patched).additions := by
        rw [← hq1]
        simpa [Prod.mk.eta] using hq
      rw [mem_compare_additions] at hq'
      have hvv := hq'.2.2
      rw [h2] at hvv
      rw [Option.some.injEq] at hvv
      exact hvv.symm
  · -- key only in `base`: removed by the deletions phase, never re-added
    have hkb : k ∈ ks := hb k ((hasKey_iff_mem_keys k base).mp (by simp [hasKey, h1]))
    have hdelmem : k ∈ (ConfigComparator.compare ks base patched).deletions :=
      (mem_compare_deletions ks base patched k).mpr ⟨hkb, by rw [h1]; rfl, h2⟩
    have had : k ∉ (ConfigComparator.compare ks base patched).additions.map Prod.fst := by
      rw [mem_map_fst]
      rintro ⟨v, hv⟩
      rw [mem_compare_additions] at hv
      have hvv := hv.2.1
      rw [h1] at hvv
      exact Option.noConfusion hvv
    have hupd : ∀ f t, (k, f, t) ∉ (ConfigComparator.compare ks base patched).updates := by
      intro f t hm
      rw [mem_compare_updates] at hm
      have hvv := hm.2.2.1
      rw [h2] at hvv
      exact Option.noConfusion hvv
    rw [getVal_setFold_not_mem _ _ _ had, getVal_updFold_not_mem _ _ _ hupd,
      getVal_eraseFold_mem _ _ _ hdelmem]
  · -- key in both maps
    have had : k ∉ (ConfigComparator.compare ks base patched).additions.map Prod.fst := by
      rw [mem_map_fst]
      rintro ⟨v, hv⟩
      rw [mem_compare_additions] at hv
      have hvv := hv.2.1
      rw [h1] at hvv
      exact Option.noConfusion hvv
    have hdel : k ∉ (ConfigComparator.compare ks base patched).deletions := by
      intro hm
      rw [mem_compare_deletions] at hm
      have hvv := hm.2.2
      rw [h2] at hvv
      exact Option.noConfusion hvv
    by_cases hne : vb = vp
    · -- unchanged: no phase touches the key
      subst hne
      have hupd : ∀ f t, (k, f, t) ∉ (ConfigComparator.compare ks base patched).updates := by
        intro f t hm
        rw [mem_compare_updates] at hm
        have hf := hm.2.1
        have ht := hm.2.2.1
        rw [h1, Option.some.injEq] at hf
        rw [h2, Option.some.injEq] at ht
        exact hm.2.2.2 (hf.symm ▸ ht.symm ▸ rfl)
      rw [getVal_setFold_not_mem _ _ _ had, getVal_updFold_not_mem _ _ _ hupd,
        getVal_eraseFold_not_mem _ _ _ hdel]
      exact h1
    · -- updated: the updates phase writes the patched value
      have hkb : k ∈ ks := hb k ((hasKey_iff_mem_keys k base).mp (by simp [hasKey, h1]))
      have hupdmem : (k, vb, vp) ∈ (ConfigComparator.compare ks base patched).updates :=
        (mem_compare_updates ks base patched k vb vp).mpr ⟨hkb, h1, h2, hne⟩
      rw [getVal_setFold_not_mem _ _ _ had,
        getVal_updFold_mem _ _ k vp ⟨vb, hupdmem⟩ ?_]
      rintro f t' hm
      rw [mem_compare_updates] at hm
      have ht := hm.2.2.1
      rw [h2, Option.some.injEq] at ht
      exact ht.symm

/-- The base snapshot of the spec's concrete scenario. -/
def exBase : Config Nat := [("a", 1), ("b", 2)]

/-- The patched snapshot of the spec's concrete scenario. -/
def exPatched : Config Nat := [("b", 3), ("c", 4)]

/-- Witness for C1 at the spec's concrete scenario
`base = {"a": 1, "b": 2}`, `patched = {"b": 3, "c": 4}`. -/
theorem compare_apply_delta_roundTrip_witness :
    getVal "a" (ConfigComparator.apply_delta exBase
        (ConfigComparator.compare ["a", "b", "c"] exBase exPatched)) = getVal "a" exPatched
    ∧ getVal "b" (ConfigComparator.apply_delta exBase
        (ConfigComparator.compare ["a", "b", "c"] exBase exPatched)) = getVal "b" exPatched
    ∧ getVal "c" (ConfigComparator.apply_delta exBase
        (ConfigComparator.compare ["a", "b", "c"] exBase exPatched)) = getVal "c" exPatched := by
  have h := compare_apply_delta_roundTrip exBase exPatched ["a", "b", "c"]
    (by decide) (by decide)
  exact ⟨h "a", h "b", h "c"⟩

/-! ## Claim C2: exhaustive, mutually exclusive classification -/

/-- The classification the source leaves implicit: a key present in both
maps with equal values, which `compare` omits from all three buckets. -/
def unchangedKey {α : Type u} [DecidableEq α] (k : String) (b p : Config α) : Prop :=
  (getVal k b).isSome = true ∧ getVal k b = getVal k p

instance {α : Type u} [DecidableEq α] (k : String) (b p : Config α) :
    Decidable (unchangedKey k b p) :=
  inferInstanceAs (Decidable (_ ∧ _))

theorem mem_addKeys_iff {α : Type u} [DecidableEq α] (ks : List String)
    (b p : Config α) (k : String) :
    k ∈ (ConfigComparator.compare ks b p).additions.map Prod.fst ↔
      k ∈ ks ∧ getVal k b = none ∧ (getVal k p).isSome = true := by
  rw [mem_map_fst]
  constructor
  · rintro ⟨v, hv⟩
    rw [mem_compare_additions] at hv
    exact ⟨hv.1, hv.2.1, by rw [hv.2.2]; rfl⟩
  · rintro ⟨hm, hbn, hps⟩
    rcases Option.isSome_iff_exists.mp hps with ⟨v, hv⟩
    exact ⟨v, (mem_compare_additions ks b p k v).mpr ⟨hm, hbn, hv⟩⟩

theorem mem_updKeys_iff {α : Type u} [DecidableEq α] (ks : List String)
    (b p : Config α) (k : String) :
    k ∈ (ConfigComparator.compare ks b p).updates.map Prod.fst ↔
      k ∈ ks ∧ ∃ vb vp, getVal k b = some vb ∧ getVal k p = some vp ∧ vb ≠ vp := by
  rw [mem_map_fst]
  constructor
  · rintro ⟨v, hv⟩
    have hv' : (k, v.1, v.2) ∈ (ConfigComparator.compare ks b p).updates := by
      simpa [Prod.mk.eta] using hv
    rw [mem_compare_updates] at hv'
    exact ⟨hv'.1, v.1, v.2, hv'.2.1, hv'.2.2.1, hv'.2.2.2⟩
  · rintro ⟨hm, vb, vp, hb1, hp1, hne⟩
    exact ⟨(vb, vp), (mem_compare_updates ks b p k vb vp).mpr ⟨hm, hb1, hp1, hne⟩⟩

/-- **C2.**  Every key of `keys(base) ∪ keys(patched)` is classified by
`compare` into exactly one of additions, deletions, updates, or unchanged
(the latter omitted from the delta), and no key outside the union lands in
any bucket.  `ks` is any enumeration covering the key-set union, as the
source's `set(config) | set(patched_config)` is. -/
theorem compare_classifies_exactly_once {α : Type u} [DecidableEq α]
    (base patched : Config α) (ks : List String)
    (hb : ∀ k ∈ base.map Prod.fst, k ∈ ks)
    (hp : ∀ k ∈ patched.map Prod.fst, k ∈ ks) :
    (∀ k, hasKey k base = true ∨ hasKey k patched = true →
      ((if k ∈ (ConfigComparator.compare ks base patched).additions.map Prod.fst
          then 1 else 0)
        + (if k ∈ (ConfigComparator.compare ks base patched).deletions then 1 else 0)
        + (if k ∈ (ConfigComparator.compare ks base patched).updates.map Prod.fst
          then 1 else 0)
        + (if unchangedKey k base patched then 1 else 0) = 1))
    ∧ (∀ k, (k ∈ (ConfigComparator.compare ks base patched).additions.map Prod.fst
          ∨ k ∈ (ConfigComparator.compare ks base patched).deletions
          ∨ k ∈ (ConfigComparator.compare ks base patched).updates.map Prod.fst) →
        hasKey k base = true ∨ hasKey k patched = true) := by
  constructor
  · intro k hk
    rcases h1 : getVal k base with _ | vb <;> rcases h2 : getVal k patched with _ | vp
    · exfalso
      rcases hk with hk | hk <;> rw [hasKey] at hk
      · rw [h1] at hk; exact Bool.noConfusion hk
      · rw [h2] at hk; exact Bool.noConfusion hk
    · -- addition
      have hkp : k ∈ ks := hp k ((hasKey_iff_mem_keys k patched).mp (by simp [hasKey, h2]))
      have ha : k ∈ (ConfigComparator.compare ks base patched).additions.map Prod.fst :=
        (mem_addKeys_iff ks base patched k).mpr ⟨hkp, h1, by rw [h2]; rfl⟩
      have hd : k ∉ (ConfigComparator.compare ks base patched).deletions := by
        intro hm
        rw [mem_compare_deletions] at hm
        have hs := hm.2.1
        rw [h1] at hs
        exact Bool.noConfusion hs
      have hu : k ∉ (ConfigComparator.compare ks base patched).updates.map Prod.fst := by
        intro hm
        rcases ((mem_updKeys_iff ks base patched k).mp hm).2 with ⟨vb2, vp2, hb2, _, _⟩
        rw [h1] at hb2
        exact Option.noConfusion hb2
      have hun : ¬ unchangedKey k base patched := by
        rintro ⟨hs, _⟩
        rw [h1] at hs
        exact Bool.noConfusion hs
      rw [if_pos ha, if_neg hd, if_neg hu, if_neg hun]
    · -- deletion
      have hkb : k ∈ ks := hb k ((hasKey_iff_mem_keys k base).mp (by simp [hasKey, h1]))
      have ha : k ∉ (ConfigComparator.compare ks base patched).additions.map Prod.fst := by
        intro hm
        have hbn := ((mem_addKeys_iff ks base patched k).mp hm).2.1
        rw [h1] at hbn
        exact Option.noConfusion hbn
      have hd : k ∈ (ConfigComparator.compare ks base patched).deletions :=
        (mem_compare_deletions ks base patched k).mpr ⟨hkb, by rw [h1]; rfl, h2⟩
      have hu : k ∉ (ConfigComparator.compare ks base patched).updates.map Prod.fst := by
        intro hm
        rcases ((mem_updKeys_iff ks base patched k).mp hm).2 with ⟨vb2, vp2, _, hp2, _⟩
        rw [h2] at hp2
        exact Option.noConfusion hp2
      have hun : ¬ unchangedKey k base patched := by
        rintro ⟨_, heq⟩
        rw [h1, h2] at heq
        exact Option.noConfusion heq
      rw [if_neg ha, if_pos hd, if_neg hu, if_neg hun]
    · -- key in both maps
      have ha : k ∉ (ConfigComparator.compare ks base patched).additions.map Prod.fst := by
        intro hm
        have hbn := ((mem_addKeys_iff ks base patched k).mp hm).2.1
        rw [h1] at hbn
        exact Option.noConfusion hbn
      have hd : k ∉ (ConfigComparator.compare ks base patched).deletions := by
        intro hm
        have hpn := ((mem_compare_deletions ks base patched k).mp hm).2.2
        rw [h2] at hpn
        exact Option.noConfusion hpn
      by_cases hne : vb = vp
      · -- unchanged
        subst hne
        have hu : k ∉ (ConfigComparator.compare ks base patched).updates.map Prod.fst := by
          intro hm
          rcases ((mem_updKeys_iff ks base patched k).mp hm).2 with ⟨vb2, vp2, hb2, hp2, hne2⟩
          rw [h1, Option.some.injEq] at hb2
          rw [h2, Option.some.injEq] at hp2
          exact hne2 (hb2.symm.trans hp2)
        have hun : unchangedKey k base patched := ⟨by rw [h1]; rfl, by rw [h1, h2]⟩
        rw [if_neg ha, if_neg hd, if_neg hu, if_pos hun]
      · -- update
        have hkb : k ∈ ks := hb k ((hasKey_iff_mem_keys k base).mp (by simp [hasKey, h1]))
        have hu : k ∈ (ConfigComparator.compare ks base patched).updates.map Prod.fst :=
          (mem_updKeys_iff ks base patched k).mpr ⟨hkb, vb, vp, h1, h2, hne⟩
        have hun : ¬ unchangedKey k base patched := by
          rintro ⟨_, heq⟩
          rw [h1, h2, Option.some.injEq] at heq
          exact hne heq
        rw [if_neg ha, if_neg hd, if_pos hu, if_neg hun]
  · intro k hk
    rcases hk with hk | hk | hk
    · rw [mem_addKeys_iff] at hk
      right; rw [hasKey, hk.2.2]
    · rw [mem_compare_deletions] at hk
      left; rw [hasKey, hk.2.1]
    · rw [mem_updKeys_iff] at hk
      rcases hk.2 with ⟨vb, vp, hb1, _, _⟩
      left; rw [hasKey, hb1]; rfl

/-- Witness for C2 at the spec's concrete scenario, keys "a" (deleted),
"b" (updated), "c" (added). -/
theorem compare_classifies_exactly_once_witness :
    ((if "a" ∈ (ConfigComparator.compare ["a", "b", "c"] exBase exPatched).additions.map Prod.fst
        then 1 else 0)
      + (if "a" ∈ (ConfigComparator.compare ["a", "b", "c"] exBase exPatched).deletions then 1 else 0)
      + (if "a" ∈ (ConfigComparator.compare ["a", "b", "c"] exBase exPatched).updates.map Prod.fst
        then 1 else 0)
      + (if unchangedKey "a" exBase exPatched then 1 else 0) = 1)
    ∧ ((if "b" ∈ (ConfigComparator.compare ["a", "b", "c"] exBase exPatched).additions.map Prod.fst
        then 1 else 0)
      + (if "b" ∈ (ConfigComparator.compare ["a", "b", "c"] exBase exPatched).deletions then 1 else 0)
      + (if "b" ∈ (ConfigComparator.compare ["a", "b", "c"] exBase exPatched).updates.map Prod.fst
        then 1 else 0)
      + (if unchangedKey "b" exBase exPatched then 1 else 0) = 1) := by
  have h := compare_classifies_exactly_once exBase exPatched ["a", "b", "c"]
    (by decide) (by decide)
  exact ⟨h.1 "a" (Or.inl (by decide)), h.1 "b" (Or.inl (by decide))⟩

/-! ## Claim C9: bucket ordering -/

/-- **C9, counterexample.**  The claim says the buckets returned by
`compare` are sorted by key, hence identical for identical `(base, patched)`
inputs.  The source iterates `set(config) | set(patched_config)`, whose
order is arbitrary: both `["b", "a"]` and `["a", "b"]` are admissible
enumerations of the union for `base = {"a": 1, "b": 2}`, `patched = {}`
(each is duplicate-free, covers both maps, and contains only union keys),
yet one yields the unsorted deletions bucket `["b", "a"]` and the two runs
disagree. -/
theorem compare_not_key_sorted_counterexample :
    (["b", "a"].Nodup
      ∧ (∀ k ∈ exBase.map Prod.fst, k ∈ ["b", "a"])
      ∧ (∀ k ∈ ([] : Config Nat).map Prod.fst, k ∈ ["b", "a"])
      ∧ (∀ k ∈ ["b", "a"], hasKey k exBase = true ∨ hasKey k ([] : Config Nat) = true))
    ∧ (["a", "b"].Nodup
      ∧ (∀ k ∈ exBase.map Prod.fst, k ∈ ["a", "b"])
      ∧ (∀ k ∈ ([] : Config Nat).map Prod.fst, k ∈ ["a", "b"])
      ∧ (∀ k ∈ ["a", "b"], hasKey k exBase = true ∨ hasKey k ([] : Config Nat) = true))
    ∧ (ConfigComparator.compare ["b", "a"] exBase []).deletions = ["b", "a"]
    ∧ ¬ List.Sorted (· ≤ ·) (ConfigComparator.compare ["b", "a"] exBase []).deletions
    ∧ ConfigComparator.compare ["b", "a"] exBase []
        ≠ ConfigComparator.compare ["a", "b"] exBase [] := by
  refine ⟨by decide, by decide, by decide, ?_, by decide⟩
  have h : (ConfigComparator.compare ["b", "a"] exBase ([] : Config Nat)).deletions
      = ["b", "a"] := by decide
  rw [h]
  simp [List.Sorted, List.pairwise_cons, String.le_iff_toList_le]
  decide

/-- **C9, amended.**  Each bucket of `compare` is the key enumeration
filtered (and decorated) by that bucket's classification condition, in
enumeration order: the output order is exactly the iteration order of the
key-set union, which the source does not sort, so determinism holds only
relative to a fixed enumeration. -/
theorem compare_buckets_follow_enumeration_order {α : Type u} [DecidableEq α]
    (ks : List String) (b p : Config α) :
    (ConfigComparator.compare ks b p).additions = ks.filterMap (addFun b p)
    ∧ (ConfigComparator.compare ks b p).deletions = ks.filter (delFun b p)
    ∧ (ConfigComparator.compare ks b p).updates = ks.filterMap (updFun b p) :=
  ⟨compare_additions_eq ks b p, compare_deletions_eq ks b p, compare_updates_eq ks b p⟩

/-! ## Multiplicity parsing (src/main.py lines 62–65)

`agg.source_multiplicity.split("..")[0]` and
`split("..")[-1] if ".." in s else s`, modelled on `List Char`.
Python `str.split` cuts at non-overlapping occurrences of the separator,
scanning left to right. -/

/-- Python `s.split("..")`: fields between non-overlapping occurrences of
`".."`, found left to right. -/
def splitOnSep : List Char → List (List Char)
  | [] => [[]]
  | [c] => [[c]]
  | c1 :: c2 :: rest =>
    if c1 = '.' ∧ c2 = '.' then [] :: splitOnSep rest
    else
      match splitOnSep (c2 :: rest) with
      | [] => [[c1]]
      | f :: fs => (c1 :: f) :: fs

/-- Python `".." in s`. -/
def containsSep : List Char → Bool
  | c1 :: c2 :: rest => (c1 = '.' && c2 = '.') || containsSep (c2 :: rest)
  | _ => false

/-- Python `l[0]` on a `split` result (never empty). -/
def firstField (l : List (List Char)) : List Char :=
  match l with
  | [] => []
  | f :: _ => f

/-- Python `l[-1]` on a `split` result (never empty). -/
def lastField (l : List (List Char)) : List Char :=
  match l with
  | [] => []
  | [f] => f
  | _ :: rest => lastField rest

/-- `min_cardinality` as the source computes it: `s.split("..")[0]`. -/
def parseMinMult (s : List Char) : List Char :=
  firstField (splitOnSep s)

/-- `max_cardinality` as the source computes it:
`s.split("..")[-1] if ".." in s else s`. -/
def parseMaxMult (s : List Char) : List Char :=
  if containsSep s then lastField (splitOnSep s) else s

/-- String-level wrapper for `min_cardinality`. -/
def parseMinMultS (s : String) : String :=
  String.mk (parseMinMult s.toList)

/-- String-level wrapper for `max_cardinality`. -/
def parseMaxMultS (s : String) : String :=
  String.mk (parseMaxMult s.toList)

/-- Spec-side definition: the part of the string before the first
occurrence of the separator `".."` (the whole string if there is none). -/
def beforeFirstSep : List Char → List Char
  | [] => []
  | [c] => [c]
  | c1 :: c2 :: rest =>
    if c1 = '.' ∧ c2 = '.' then [] else c1 :: beforeFirstSep (c2 :: rest)

/-- Spec-side definition: the part of the string after the last separator
occurrence, separators being the non-overlapping left-to-right occurrences
of `".."`: find the first separator, skip it, and recurse while a further
separator remains. -/
def afterLastSep : List Char → List Char
  | [] => []
  | [_] => []
  | c1 :: c2 :: rest =>
    if c1 = '.' ∧ c2 = '.' then
      if containsSep rest then afterLastSep rest else rest
    else afterLastSep (c2 :: rest)

/-- Length-bounded induction peeling one character but looking ahead two,
matching the recursion of `splitOnSep` and friends. -/
theorem twoStepInduction {P : List Char → Prop} (h0 : P []) (h1 : ∀ c, P [c])
    (h2 : ∀ c1 c2 rest, P rest → P (c2 :: rest) → P (c1 :: c2 :: rest)) :
    ∀ s, P s := by
  have key : ∀ n (s : List Char), s.length ≤ n → P s := by
    intro n
    induction n with
    | zero =>
      intro s hs
      match s with
      | [] => exact h0
      | c :: rest => simp at hs
    | succ n ih =>
      intro s hs
      match s with
      | [] => exact h0
      | [c] => exact h1 c
      | c1 :: c2 :: rest =>
        have hr : rest.length ≤ n := by simp at hs; omega
        have hr2 : (c2 :: rest).length ≤ n := by simp at hs ⊢; omega
        exact h2 c1 c2 rest (ih rest hr) (ih _ hr2)
  exact fun s => key s.length s le_rfl

theorem splitOnSep_ne_nil (s : List Char) : splitOnSep s ≠ [] := by
  induction s using twoStepInduction with
  | h0 => simp [splitOnSep]
  | h1 c => simp [splitOnSep]
  | h2 c1 c2 rest ih ih2 =>
    by_cases h : c1 = '.' ∧ c2 = '.'
    · simp [splitOnSep, h]
    · simp only [splitOnSep, if_neg h]
      rcases hsp : splitOnSep (c2 :: rest) with _ | ⟨f, fs⟩
      · exact absurd hsp ih2
      · simp

theorem splitOnSep_no_sep (s : List Char) (h : containsSep s = false) :
    splitOnSep s = [s] := by
  induction s using twoStepInduction with
  | h0 => rfl
  | h1 c => rfl
  | h2 c1 c2 rest ih ih2 =>
    rw [containsSep, Bool.or_eq_false_iff, Bool.and_eq_false_iff] at h
    have hsep : ¬ (c1 = '.' ∧ c2 = '.') := by
      rintro ⟨ha, hb⟩
      rcases h.1 with hc | hc <;> simp [ha, hb] at hc
    rw [splitOnSep.eq_3, if_neg hsep, ih2 h.2]

theorem splitOnSep_two_fields (s : List Char) (h : containsSep s = true) :
    ∃ x y l, splitOnSep s = x :: y :: l := by
  induction s using twoStepInduction with
  | h0 => exact Bool.noConfusion h
  | h1 c => exact Bool.noConfusion h
  | h2 c1 c2 rest ih ih2 =>
    by_cases hsep : c1 = '.' ∧ c2 = '.'
    · rw [splitOnSep.eq_3, if_pos hsep]
      rcases hr : splitOnSep rest with _ | ⟨f, fs⟩
      · exact absurd hr (splitOnSep_ne_nil rest)
      · exact ⟨[], f, fs, rfl⟩
    · have h2' : containsSep (c2 :: rest) = true := by
        rw [containsSep, Bool.or_eq_true] at h
        rcases h with hc | hc
        · exfalso
          rw [Bool.and_eq_true] at hc
          exact hsep ⟨by simpa using hc.1, by simpa using hc.2⟩
        · exact hc
      rcases ih2 h2' with ⟨x, y, l, hxy⟩
      rw [splitOnSep.eq_3, if_neg hsep, hxy]
      exact ⟨c1 :: x, y, l, rfl⟩

theorem parseMin_eq_beforeFirst (s : List Char) :
    parseMinMult s = beforeFirstSep s := by
  induction s using twoStepInduction with
  | h0 => rfl
  | h1 c => rfl
  | h2 c1 c2 rest ih ih2 =>
    by_cases hsep : c1 = '.' ∧ c2 = '.'
    · rw [parseMinMult, splitOnSep.eq_3, if_pos hsep, beforeFirstSep.eq_3, if_pos hsep]
      rfl
    · rw [parseMinMult, splitOnSep.eq_3, if_neg hsep, beforeFirstSep.eq_3, if_neg hsep]
      rcases hsp : splitOnSep (c2 :: rest) with _ | ⟨f, fs⟩
      · exact absurd hsp (splitOnSep_ne_nil _)
      · rw [parseMinMult, hsp] at ih2
        simp [firstField] at ih2 ⊢
        exact ih2

theorem parseMax_eq_afterLast (s : List Char) (h : containsSep s = true) :
    lastField (splitOnSep s) = afterLastSep s := by
  induction s using twoStepInduction with
  | h0 => exact Bool.noConfusion h
  | h1 c => exact Bool.noConfusion h
  | h2 c1 c2 rest ih ih2 =>
    by_cases hsep : c1 = '.' ∧ c2 = '.'
    · rw [splitOnSep.eq_3, if_pos hsep, afterLastSep.eq_3, if_pos hsep]
      rcases hcr : containsSep rest with _ | _
      · rw [splitOnSep_no_sep rest hcr]
        rfl
      · rcases splitOnSep_two_fields rest hcr with ⟨x, y, l, hxy⟩
        rw [hxy]
        rw [hxy] at ih
        exact ih hcr
    · have h2' : containsSep (c2 :: rest) = true := by
        rw [containsSep, Bool.or_eq_true] at h
        rcases h with hc | hc
        · exfalso
          rw [Bool.and_eq_true] at hc
          exact hsep ⟨by simpa using hc.1, by simpa using hc.2⟩
        · exact hc
      rw [splitOnSep.eq_3, if_neg hsep, afterLastSep.eq_3, if_neg hsep]
      rcases splitOnSep_two_fields (c2 :: rest) h2' with ⟨x, y, l, hxy⟩
      rw [hxy]
      rw [hxy] at ih2
      rw [← ih2 h2']
      rfl

/-- **C3.**  Multiplicity parsing: if the string contains the range
separator `".."`, `min_cardinality` is the part before the first separator
and `max_cardinality` the part after the last separator (separators being
the non-overlapping left-to-right occurrences Python `split` cuts at);
otherwise both equal the literal string.  In particular `"0..*"` parses to
`("0", "*")`, `"1"` to `("1", "1")` and `"1..5"` to `("1", "5")`. -/
theorem multiplicity_parsing :
    (∀ s : List Char,
      (containsSep s = true →
        parseMinMult s = beforeFirstSep s ∧ parseMaxMult s = afterLastSep s)
      ∧ (containsSep s = false → parseMinMult s = s ∧ parseMaxMult s = s))
    ∧ parseMinMultS "0..*" = "0" ∧ parseMaxMultS "0..*" = "*"
    ∧ parseMinMultS "1" = "1" ∧ parseMaxMultS "1" = "1"
    ∧ parseMinMultS "1..5" = "1" ∧ parseMaxMultS "1..5" = "5" := by
  refine ⟨fun s => ⟨fun h => ⟨parseMin_eq_beforeFirst s, ?_⟩, fun h => ⟨?_, ?_⟩⟩,
    by decide, by decide, by decide, by decide, by decide, by decide⟩
  · rw [parseMaxMult, if_pos h]
    exact parseMax_eq_afterLast s h
  · rw [parseMinMult, splitOnSep_no_sep s h]
    rfl
  · rw [parseMaxMult, if_neg (by simp [h])]

/-- Witness for C3 at the spec's example strings `"0..*"` and `"1"`. -/
theorem multiplicity_parsing_witness :
    parseMinMult ("0..*".toList) = beforeFirstSep ("0..*".toList)
    ∧ parseMaxMult ("0..*".toList) = afterLastSep ("0..*".toList)
    ∧ parseMinMult ("1".toList) = "1".toList
    ∧ parseMaxMult ("1".toList) = "1".toList := by
  have h := multiplicity_parsing
  refine ⟨((h.1 "0..*".toList).1 (by decide)).1, ((h.1 "0..*".toList).1 (by decide)).2,
    ((h.1 "1".toList).2 (by decide)).1, ((h.1 "1".toList).2 (by decide)).2⟩

/-! ## Model entities (src/main.py lines 8–26) -/

/-- `Attribute` (src/main.py lines 8–11). -/
structure Attribute where
  name : String
  type : String
  deriving DecidableEq, Repr

/-- `ClassModel` (src/main.py lines 13–19); `child_classes` entries are
`(child_name, min, max)` triples. -/
structure ClassModel where
  name : String
  is_root : Bool
  documentation : String
  attributes : List Attribute
  child_classes : List (String × String × String)
  deriving DecidableEq, Repr

/-- `Aggregation` (src/main.py lines 21–26). -/
structure Aggregation where
  source : String
  target : String
  source_multiplicity : String
  target_multiplicity : String
  deriving DecidableEq, Repr

/-- The `classes` dict built by `ModelParser.parse`: class name → record,
in insertion order. -/
abbrev Model : Type := List (String × ClassModel)

/-- One top-level element of the input description: a `<Class>` element
(with its parsed attribute children) or an `<Aggregation>` element.  The
XML decoding itself is the excluded I/O wrapper; this is the declaration
sequence `ModelParser.parse` iterates over. -/
inductive Decl where
  | classDecl (name : String) (isRoot : Bool) (documentation : String)
      (attrs : List Attribute)
  | aggDecl (source target sourceMultiplicity targetMultiplicity : String)
  deriving DecidableEq, Repr

/-- Update the value stored at `k` in place (the effect of mutating the
object `classes.get(k)` returned by a Python dict lookup). -/
def updateVal {α : Type u} (k : String) (f : α → α) : Config α → Config α
  | [] => []
  | p :: rest => if p.1 = k then (p.1, f p.2) :: rest else p :: updateVal k f rest

namespace ModelParser

/-- First pass of `ModelParser.parse` (src/main.py lines 36–55): build the
class dict (`classes[name] = ...`, a later duplicate overwriting in place)
and collect aggregations in encounter order. -/
def firstPassAux : Model × List Aggregation → List Decl → Model × List Aggregation
  | acc, [] => acc
  | acc, .classDecl n r doc attrs :: rest =>
    firstPassAux (setKey n ⟨n, r, doc, attrs, []⟩ acc.1, acc.2) rest
  | acc, .aggDecl s t sm tm :: rest =>
    firstPassAux (acc.1, acc.2 ++ [⟨s, t, sm, tm⟩]) rest

/-- Second pass of `ModelParser.parse` (src/main.py lines 58–65): look up
the aggregation's `target`; if present, append a child reference built
from `source` and the parsed `source_multiplicity`; otherwise do nothing. -/
def applyAgg (classes : Model) (agg : Aggregation) : Model :=
  match getVal agg.target classes with
  | none => classes
  | some _ =>
    updateVal agg.target
      (fun c => ⟨c.name, c.is_root, c.documentation, c.attributes,
        c.child_classes ++ [(agg.source, parseMinMultS agg.source_multiplicity,
          parseMaxMultS agg.source_multiplicity)]⟩)
      classes

/-- `build_model`: the class dict after both passes of
`ModelParser.parse` (the returned aggregation list is not used further). -/
def buildModel (decls : List Decl) : Model :=
  (firstPassAux ([], []) decls).2.foldl applyAgg (firstPassAux ([], []) decls).1

end ModelParser

/-! ### Builder lemmas -/

/-- Class-dict step of the first pass. -/
def stepClass (m : Model) (d : Decl) : Model :=
  match d with
  | .classDecl n r doc attrs => setKey n ⟨n, r, doc, attrs, []⟩ m
  | .aggDecl _ _ _ _ => m

/-- Class dict accumulated by the first pass. -/
def classesOf (m : Model) (decls : List Decl) : Model :=
  decls.foldl stepClass m

/-- Aggregation records collected by the first pass, in encounter order. -/
def aggsOf (decls : List Decl) : List Aggregation :=
  decls.filterMap (fun d =>
    match d with
    | .aggDecl s t sm tm => some ⟨s, t, sm, tm⟩
    | _ => none)

/-- Names declared by `classDecl`s, in encounter order. -/
def classNames : List Decl → List String
  | [] => []
  | .classDecl n _ _ _ :: rest => n :: classNames rest
  | .aggDecl _ _ _ _ :: rest => classNames rest

theorem firstPassAux_eq (acc : Model × List Aggregation) (decls : List Decl) :
    ModelParser.firstPassAux acc decls = (classesOf acc.1 decls, acc.2 ++ aggsOf decls) := by
  induction decls generalizing acc with
  | nil => simp [ModelParser.firstPassAux, classesOf, aggsOf]
  | cons d rest ih =>
    cases d with
    | classDecl n r doc attrs =>
      rw [ModelParser.firstPassAux, ih]
      simp [classesOf, aggsOf, stepClass]
    | aggDecl s t sm tm =>
      rw [ModelParser.firstPassAux, ih]
      simp [classesOf, aggsOf, stepClass]

theorem buildModel_eq (decls : List Decl) :
    ModelParser.buildModel decls
      = (aggsOf decls).foldl ModelParser.applyAgg (classesOf [] decls) := by
  rw [ModelParser.buildModel, firstPassAux_eq]
  simp

theorem getVal_updateVal {α : Type u} (k k' : String) (f : α → α) (c : Config α) :
    getVal k' (updateVal k f c) = if k = k' then (getVal k' c).map f else getVal k' c := by
  induction c with
  | nil => simp [updateVal, getVal]
  | cons p rest ih =>
    simp only [updateVal]
    by_cases h1 : p.1 = k
    · rw [if_pos h1]
      simp only [getVal]
      by_cases h2 : k = k'
      · have : p.1 = k' := h1.trans h2
        simp [this, h2]
      · have hp : ¬ p.1 = k' := fun he => h2 (h1.symm.trans he)
        simp [hp, h2]
    · rw [if_neg h1]
      simp only [getVal]
      by_cases h2 : p.1 = k'
      · have hkk : ¬ k = k' := fun he => h1 (by rw [he]; exact h2)
        simp [h2, hkk]
      · simp [h2, ih]

theorem applyAgg_unknown_target (classes : Model) (agg : Aggregation)
    (h : getVal agg.target classes = none) :
    ModelParser.applyAgg classes agg = classes := by
  rw [ModelParser.applyAgg, h]

theorem applyAgg_known_target (classes : Model) (agg : Aggregation) (cm : ClassModel)
    (h : getVal agg.target classes = some cm) :
    getVal agg.target (ModelParser.applyAgg classes agg)
        = some ⟨cm.name, cm.is_root, cm.documentation, cm.attributes,
            cm.child_classes ++ [(agg.source, parseMinMultS agg.source_multiplicity,
              parseMaxMultS agg.source_multiplicity)]⟩
      ∧ ∀ k, k ≠ agg.target → getVal k (ModelParser.applyAgg classes agg) = getVal k classes := by
  constructor
  · rw [ModelParser.applyAgg, h, getVal_updateVal, if_pos rfl, h]
    rfl
  · intro k hk
    rw [ModelParser.applyAgg, h, getVal_updateVal, if_neg (fun he => hk he.symm)]

theorem applyAgg_isSome (classes : Model) (agg : Aggregation) (k : String) :
    (getVal k (ModelParser.applyAgg classes agg)).isSome
      = (getVal k classes).isSome := by
  rw [ModelParser.applyAgg]
  rcases h : getVal agg.target classes with _ | cm
  · rfl
  · rw [getVal_updateVal]
    by_cases he : agg.target = k
    · rw [if_pos he]
      cases getVal k classes <;> rfl
    · rw [if_neg he]

theorem aggFold_isSome (aggs : List Aggregation) (classes : Model) (k : String) :
    (getVal k (aggs.foldl ModelParser.applyAgg classes)).isSome
      = (getVal k classes).isSome := by
  induction aggs generalizing classes with
  | nil => rfl
  | cons a rest ih =>
    simp only [List.foldl_cons]
    rw [ih, applyAgg_isSome]

theorem classesOf_cons (m : Model) (d : Decl) (rest : List Decl) :
    classesOf m (d :: rest) = classesOf (stepClass m d) rest := rfl

theorem getVal_classesOf_isSome (decls : List Decl) : ∀ (m : Model) (k : String),
    (getVal k (classesOf m decls)).isSome = true
      ↔ (getVal k m).isSome = true ∨ k ∈ classNames decls := by
  induction decls with
  | nil =>
    intro m k
    simp [classesOf, classNames]
  | cons d rest ih =>
    intro m k
    rw [classesOf_cons, ih]
    cases d with
    | classDecl n r doc attrs =>
      simp only [stepClass, classNames, List.mem_cons]
      constructor
      · rintro (hs | hm)
        · rw [getVal_setKey] at hs
          by_cases he : n = k
          · exact Or.inr (Or.inl he.symm)
          · rw [if_neg he] at hs
            exact Or.inl hs
        · exact Or.inr (Or.inr hm)
      · rintro (hs | he | hm)
        · by_cases he : n = k
          · left
            rw [getVal_setKey, if_pos he]
            rfl
          · left
            rw [getVal_setKey, if_neg he]
            exact hs
        · left
          rw [getVal_setKey, if_pos he.symm]
          rfl
        · exact Or.inr hm
    | aggDecl s t sm tm =>
      simp only [stepClass, classNames]

theorem classesOf_append (m : Model) (l1 l2 : List Decl) :
    classesOf m (l1 ++ l2) = classesOf (classesOf m l1) l2 :=
  List.foldl_append _ _ _ _

/-! ## Claim C8: unresolved aggregation targets are silently skipped -/

/-- **C8.**  An aggregation whose `target` names no class of the model is
silently dropped by the builder: the built model is the one for the input
without that aggregation, with no error (the builder is total).  An
aggregation whose `target` does resolve appends exactly one child
reference `(source, parsed multiplicity)` to the target class (at the end,
so edge-encounter order is preserved across the second-pass fold) and
leaves every other class untouched. -/
theorem aggregation_target_resolution :
    (∀ (l1 l2 : List Decl) (s t sm tm : String),
      t ∉ classNames (l1 ++ l2) →
      ModelParser.buildModel (l1 ++ Decl.aggDecl s t sm tm :: l2)
        = ModelParser.buildModel (l1 ++ l2))
    ∧ (∀ (classes : Model) (agg : Aggregation) (cm : ClassModel),
      getVal agg.target classes = some cm →
      getVal agg.target (ModelParser.applyAgg classes agg)
          = some ⟨cm.name, cm.is_root, cm.documentation, cm.attributes,
              cm.child_classes ++ [(agg.source, parseMinMultS agg.source_multiplicity,
                parseMaxMultS agg.source_multiplicity)]⟩
        ∧ ∀ k, k ≠ agg.target →
            getVal k (ModelParser.applyAgg classes agg) = getVal k classes) := by
  constructor
  · intro l1 l2 s t sm tm ht
    rw [buildModel_eq, buildModel_eq]
    have hcls : classesOf ([] : Model) (l1 ++ Decl.aggDecl s t sm tm :: l2)
        = classesOf [] (l1 ++ l2) := by
      rw [classesOf_append, classesOf_append, classesOf_cons]
      rfl
    have haggs : aggsOf (l1 ++ Decl.aggDecl s t sm tm :: l2)
        = aggsOf l1 ++ ⟨s, t, sm, tm⟩ :: aggsOf l2 := by
      simp [aggsOf, List.filterMap_append, List.filterMap_cons]
    have haggs2 : aggsOf (l1 ++ l2) = aggsOf l1 ++ aggsOf l2 := by
      simp [aggsOf, List.filterMap_append]
    rw [hcls, haggs, haggs2, List.foldl_append, List.foldl_cons, List.foldl_append]
    congr 1
    apply applyAgg_unknown_target
    have hM0 : getVal t (classesOf ([] : Model) (l1 ++ l2)) = none := by
      rcases hh : getVal t (classesOf ([] : Model) (l1 ++ l2)) with _ | v
      · rfl
      · exfalso
        have : (getVal t (classesOf ([] : Model) (l1 ++ l2))).isSome = true := by
          rw [hh]; rfl
        rcases (getVal_classesOf_isSome (l1 ++ l2) [] t).mp this with hs | hm
        · rw [getVal] at hs
          exact Bool.noConfusion hs
        · exact ht hm
    rcases hx : getVal t ((aggsOf l1).foldl ModelParser.applyAgg
        (classesOf ([] : Model) (l1 ++ l2))) with _ | v
    · rfl
    · exfalso
      have hsx : (getVal t ((aggsOf l1).foldl ModelParser.applyAgg
          (classesOf ([] : Model) (l1 ++ l2)))).isSome = true := by
        rw [hx]; rfl
      rw [aggFold_isSome, hM0] at hsx
      exact Bool.noConfusion hsx
  · intro classes agg cm h
    exact applyAgg_known_target classes agg cm h

/-- Witness for C8: the aggregation targeting the unknown class
`"Missing"` is dropped, and an aggregation targeting `"A"` appends one
child reference. -/
theorem aggregation_target_resolution_witness :
    ModelParser.buildModel
        [Decl.classDecl "A" true "" [], Decl.aggDecl "B" "Missing" "1" "1"]
      = ModelParser.buildModel [Decl.classDecl "A" true "" []]
    ∧ getVal "A" (ModelParser.applyAgg [("A", ⟨"A", true, "", [], []⟩)]
        ⟨"B", "A", "1", "1"⟩) = some ⟨"A", true, "", [], [("B", "1", "1")]⟩ := by
  constructor
  · exact aggregation_target_resolution.1 [Decl.classDecl "A" true "" []] []
      "B" "Missing" "1" "1" (by decide)
  · have h := (aggregation_target_resolution.2 [("A", ⟨"A", true, "", [], []⟩)]
      ⟨"B", "A", "1", "1"⟩ ⟨"A", true, "", [], []⟩ rfl).1
    rw [h]
    decide

/-! ## Tree serialisation (`ConfigXmlGenerator`, src/main.py lines 71–94)

The output is modelled structurally (an `ET.Element` tree); `ET.indent` /
`ET.tostring` are the excluded text encoding.  Python's unbounded recursion
in `build_xml` is modelled with a fuel parameter: `fuelExhausted` stands
for non-termination on cyclic models and never occurs when the fuel
exceeds the depth actually recursed into. -/

/-- An `xml.etree` element: tag, optional text, children. -/
inductive XNode where
  | elem (tag : String) (text : Option String) (children : List XNode)
  deriving Repr

/-- How a `ConfigXmlGenerator.generate` run can fail.  `missingRoot` is the
source's `ValueError("No root class found in the model")`; `keyError` is
the `KeyError` Python raises at the unguarded `model[class_name]` lookup;
`fuelExhausted` stands for non-termination (cyclic models). -/
inductive GenErr where
  | missingRoot
  | keyError (key : String)
  | fuelExhausted
  deriving DecidableEq, Repr

/-- Sequence a list of child results, stopping at the first failure (the
first exception the Python recursion would propagate). -/
def seqExcept : List (Except GenErr XNode) → Except GenErr (List XNode)
  | [] => .ok []
  | .error e :: _ => .error e
  | .ok t :: rest =>
    match seqExcept rest with
    | .error e => .error e
    | .ok ts => .ok (t :: ts)

namespace ConfigXmlGenerator

/-- The inner `build_xml` (src/main.py lines 78–90): look the class up
(unguarded), emit one leaf per attribute holding its type as text, then
one recursively built subtree per `child_classes` entry, in order,
ignoring the cardinality components. -/
def buildXml (model : Model) : Nat → String → Except GenErr XNode
  | 0, _ => .error .fuelExhausted
  | fuel + 1, name =>
    match getVal name model with
    | none => .error (.keyError name)
    | some cm =>
      match seqExcept (cm.child_classes.map (fun cr => buildXml model fuel cr.1)) with
      | .error e => .error e
      | .ok kids =>
        .ok (.elem name none
          (cm.attributes.map (fun a => .elem a.name (some a.type) []) ++ kids))

/-- `ConfigXmlGenerator.generate` (src/main.py lines 73–94): find the first
root-flagged class, failing with Missing-root when there is none, then
expand the tree from its `name`. -/
def generate (model : Model) (fuel : Nat) : Except GenErr XNode :=
  match model.find? (fun p => p.2.is_root) with
  | none => .error .missingRoot
  | some p => buildXml model fuel p.2.name

end ConfigXmlGenerator

/-! ## Metadata projection (`MetaJsonGenerator`, src/main.py lines 96–135)

The output is modelled structurally (the list of dicts passed to
`json.dumps`); the JSON text encoding is the excluded I/O wrapper. -/

/-- One entry of a descriptor's `parameters` list. -/
structure MetaParam where
  name : String
  type : String
  deriving DecidableEq, Repr

/-- One per-class descriptor record: the dict keys `"class"`,
`"documentation"`, `"isRoot"`, `"parameters"`, and the optional `"min"` /
`"max"` pair (present together or absent together). -/
structure MetaEntry where
  className : String
  documentation : String
  isRoot : Bool
  parameters : List MetaParam
  minMax : Option (String × String)
  deriving DecidableEq, Repr

namespace MetaJsonGenerator

/-- `MetaJsonGenerator.generate` (src/main.py lines 98–135): one
descriptor per class in dict order; `parameters` is one `{name, type}`
entry per attribute followed by one `{child_name, "class"}` entry per
child reference; `min`/`max` are added only when `child_classes` is
nonempty, from its first entry. -/
def generate (model : Model) : List MetaEntry :=
  model.map (fun p =>
    ⟨p.1, p.2.documentation, p.2.is_root,
      p.2.attributes.map (fun a => ⟨a.name, a.type⟩)
        ++ p.2.child_classes.map (fun cr => ⟨cr.1, "class"⟩),
      match p.2.child_classes with
      | [] => none
      | cr :: _ => some (cr.2.1, cr.2.2)⟩)

end MetaJsonGenerator

/-! ## Claim C6: projector completeness -/

/-- **C6.**  `MetaJsonGenerator.generate` produces exactly one descriptor
per class in the mapping — index for index, so unreachable classes are
included — and each descriptor's `parameters` is one `{name, type}` entry
per attribute followed by one `{child_name, "class"}` entry per child
reference, each group in stored order, so its length is
`attributes.length + child_classes.length`. -/
theorem meta_one_descriptor_per_class (model : Model) :
    (MetaJsonGenerator.generate model).length = model.length
    ∧ ∀ (i : Nat) (name : String) (cm : ClassModel),
      model[i]? = some (name, cm) →
      ∃ d, (MetaJsonGenerator.generate model)[i]? = some d
        ∧ d.className = name
        ∧ d.documentation = cm.documentation
        ∧ d.isRoot = cm.is_root
        ∧ d.parameters = cm.attributes.map (fun a => ⟨a.name, a.type⟩)
            ++ cm.child_classes.map (fun cr => ⟨cr.1, "class"⟩)
        ∧ d.parameters.length = cm.attributes.length + cm.child_classes.length := by
  constructor
  · rw [MetaJsonGenerator.generate, List.length_map]
  · intro i name cm h
    rw [MetaJsonGenerator.generate, List.getElem?_map, h]
    refine ⟨_, rfl, rfl, rfl, rfl, rfl, ?_⟩
    simp

/-- The model used to witness the metadata claims: class `"A"` has one
attribute and two child references with different cardinalities. -/
def metaExModel : Model :=
  [("A", ⟨"A", true, "doc", [⟨"x", "int"⟩], [("B", "0", "5"), ("C", "1", "2")]⟩),
   ("B", ⟨"B", false, "", [], []⟩)]

/-- Witness for C6 at `metaExModel`, class `"A"` (one attribute, two child
references, so three parameters). -/
theorem meta_one_descriptor_per_class_witness :
    (MetaJsonGenerator.generate metaExModel).length = 2
    ∧ (MetaJsonGenerator.generate metaExModel)[0]?.map (fun d => d.parameters.length)
        = some 3 := by
  obtain ⟨hl, hall⟩ := meta_one_descriptor_per_class metaExModel
  obtain ⟨d, hd, hname, hdoc, hroot, hparams, hlen⟩ := hall 0 "A"
    ⟨"A", true, "doc", [⟨"x", "int"⟩], [("B", "0", "5"), ("C", "1", "2")]⟩ (by decide)
  constructor
  · rw [hl]
    rfl
  · rw [hd]
    simp [hlen]

/-! ## Claim C7: min/max from the first child reference only -/

/-- **C7.**  A descriptor's `min`/`max` pair is present exactly when the
class has at least one child reference, and then it comes from the first
entry of `child_classes` alone, whatever further child references (with
whatever cardinalities) follow. -/
theorem meta_minMax_first_child (model : Model) :
    ∀ (i : Nat) (name : String) (cm : ClassModel) (d : MetaEntry),
      model[i]? = some (name, cm) →
      (MetaJsonGenerator.generate model)[i]? = some d →
      ((d.minMax = none ↔ cm.child_classes = [])
        ∧ ∀ cr rest, cm.child_classes = cr :: rest →
            d.minMax = some (cr.2.1, cr.2.2)) := by
  intro i name cm d h hd
  rw [MetaJsonGenerator.generate, List.getElem?_map, h] at hd
  have hd' : d = ⟨name, cm.documentation, cm.is_root,
      cm.attributes.map (fun a => ⟨a.name, a.type⟩)
        ++ cm.child_classes.map (fun cr => ⟨cr.1, "class"⟩),
      match cm.child_classes with
      | [] => none
      | cr :: _ => some (cr.2.1, cr.2.2)⟩ := by
    have := hd
    simp only [Option.map] at this
    exact (Option.some.injEq _ _).mp this.symm
  subst hd'
  rcases hc : cm.child_classes with _ | ⟨cr, rest⟩
  · constructor
    · simp
    · intro cr rest hcr
      exact List.noConfusion hcr
  · constructor
    · simp
    · intro cr' rest' hcr
      rw [List.cons.injEq] at hcr
      rw [← hcr.1]

/-- Witness for C7 at `metaExModel`: class `"A"` has two child references
with differing cardinalities, and its descriptor surfaces only the first
one's `("0", "5")`. -/
theorem meta_minMax_first_child_witness :
    (⟨"A", "doc", true, [⟨"x", "int"⟩, ⟨"B", "class"⟩, ⟨"C", "class"⟩],
        some ("0", "5")⟩ : MetaEntry).minMax = some ("0", "5") := by
  have h := meta_minMax_first_child metaExModel 0 "A"
    ⟨"A", true, "doc", [⟨"x", "int"⟩], [("B", "0", "5"), ("C", "1", "2")]⟩
    ⟨"A", "doc", true, [⟨"x", "int"⟩, ⟨"B", "class"⟩, ⟨"C", "class"⟩], some ("0", "5")⟩
    (by decide) (by decide)
  exact h.2 ("B", "0", "5") [("C", "1", "2")] rfl

theorem seqExcept_error_mem (l : List (Except GenErr XNode)) (e : GenErr) :
    seqExcept l = .error e → .error e ∈ l := by
  induction l with
  | nil =>
    intro h
    rw [seqExcept] at h
    exact Except.noConfusion h
  | cons x rest ih =>
    cases x with
    | error e' =>
      intro h
      rw [seqExcept] at h
      rw [Except.error.injEq] at h
      rw [h]
      exact List.mem_cons_self _ _
    | ok t =>
      intro h
      rw [seqExcept] at h
      rcases hs : seqExcept rest with e'' | ts
      · rw [hs] at h
        rw [Except.error.injEq] at h
        rw [h] at hs
        exact List.mem_cons_of_mem _ (ih hs)
      · rw [hs] at h
        exact Except.noConfusion h

theorem buildXml_ne_missingRoot (model : Model) : ∀ (fuel : Nat) (name : String),
    ConfigXmlGenerator.buildXml model fuel name ≠ .error .missingRoot := by
  intro fuel
  induction fuel with
  | zero =>
    intro name h
    rw [ConfigXmlGenerator.buildXml] at h
    simp at h
  | succ fuel ih =>
    intro name h
    rw [ConfigXmlGenerator.buildXml] at h
    split at h
    · simp at h
    · split at h
      · rename_i cm hget e heq
        rw [Except.error.injEq] at h
        rw [h] at heq
        have hmem := seqExcept_error_mem _ _ heq
        rcases List.mem_map.mp hmem with ⟨cr, hcr, hb⟩
        exact ih cr.1 hb
      · simp at h

/-! ## Claim C4: Missing-root -/

/-- **C4.**  When no class of the model has `is_root = true`,
`ConfigXmlGenerator.generate` fails with the Missing-root error (the
source's `ValueError`, a constructor distinct from the `keyError` that
models malformed lookups) — it never silently picks an arbitrary class.
When at least one class is root-flagged, the Missing-root error is never
produced, whatever the fuel. -/
theorem serialize_tree_missing_root :
    (∀ (model : Model) (fuel : Nat), (∀ p ∈ model, p.2.is_root = false) →
      ConfigXmlGenerator.generate model fuel = .error .missingRoot)
    ∧ (∀ (model : Model) (fuel : Nat), (∃ p ∈ model, p.2.is_root = true) →
      ConfigXmlGenerator.generate model fuel ≠ .error .missingRoot) := by
  constructor
  · intro model fuel h
    rw [ConfigXmlGenerator.generate]
    have hf : model.find? (fun p => p.2.is_root) = none := by
      rw [List.find?_eq_none]
      intro x hx
      simp [h x hx]
    rw [hf]
  · intro model fuel h hgen
    rw [ConfigXmlGenerator.generate] at hgen
    rcases hf : model.find? (fun p => p.2.is_root) with _ | p
    · rw [List.find?_eq_none] at hf
      rcases h with ⟨p, hp, hroot⟩
      exact hf p hp hroot
    · rw [hf] at hgen
      exact buildXml_ne_missingRoot model fuel p.2.name hgen

/-- A model with no root-flagged class. -/
def noRootModel : Model := [("A", ⟨"A", false, "", [], []⟩)]

/-- A model whose only class is root-flagged. -/
def rootedModel : Model := [("A", ⟨"A", true, "", [], []⟩)]

/-- Witness for C4: the rootless model fails with Missing-root, the rooted
one never does. -/
theorem serialize_tree_missing_root_witness :
    ConfigXmlGenerator.generate noRootModel 3 = .error .missingRoot
    ∧ ConfigXmlGenerator.generate rootedModel 3 ≠ .error .missingRoot := by
  constructor
  · exact serialize_tree_missing_root.1 noRootModel 3 (by decide)
  · exact serialize_tree_missing_root.2 rootedModel 3
      ⟨("A", ⟨"A", true, "", [], []⟩), by decide, rfl⟩

theorem seqExcept_ok_forall₂ {β : Type u} (f : β → Except GenErr XNode)
    (l : List β) (ys : List XNode) :
    seqExcept (l.map f) = .ok ys →
    List.Forall₂ (fun x y => f x = .ok y) l ys := by
  induction l generalizing ys with
  | nil =>
    intro h
    rw [List.map_nil, seqExcept] at h
    rw [Except.ok.injEq] at h
    rw [← h]
    exact List.Forall₂.nil
  | cons x rest ih =>
    intro h
    rw [List.map_cons] at h
    rcases hx : f x with e | t
    · rw [hx, seqExcept] at h
      exact Except.noConfusion h
    · rw [hx, seqExcept] at h
      rcases hs : seqExcept (rest.map f) with e' | ts
      · rw [hs] at h
        exact Except.noConfusion h
      · rw [hs] at h
        rw [Except.ok.injEq] at h
        rw [← h]
        exact List.Forall₂.cons hx (ih ts hs)

/-- Replace both cardinality components of every child reference of a
class, leaving names, flags, attributes and child order alone. -/
def classStrip (f g : String × String × String → String) (cm : ClassModel) : ClassModel :=
  ⟨cm.name, cm.is_root, cm.documentation, cm.attributes,
    cm.child_classes.map (fun cr => (cr.1, f cr, g cr))⟩

/-- Apply `classStrip` to every class of a model. -/
def stripCards (f g : String × String × String → String) (model : Model) : Model :=
  model.map (fun p => (p.1, classStrip f g p.2))

theorem getVal_mapVals {α β : Type u} (F : α → β) (k : String) (c : Config α) :
    getVal k (c.map (fun p => (p.1, F p.2))) = (getVal k c).map F := by
  induction c with
  | nil => rfl
  | cons p rest ih =>
    by_cases h : p.1 = k <;> simp [getVal, h, ih]

/-- Shape of every successful `buildXml` expansion: the node is labelled
with the class name; its children are the attribute leaves followed by one
recursively built subtree per child reference, in order. -/
theorem buildXml_ok_shape (model : Model) (fuel : Nat) (name : String) (t : XNode) :
    ConfigXmlGenerator.buildXml model (fuel + 1) name = .ok t →
    ∃ cm kids, getVal name model = some cm
      ∧ t = .elem name none
          (cm.attributes.map (fun a => .elem a.name (some a.type) []) ++ kids)
      ∧ List.Forall₂ (fun (cr : String × String × String) kid =>
          ConfigXmlGenerator.buildXml model fuel cr.1 = .ok kid)
        cm.child_classes kids := by
  intro h
  rw [ConfigXmlGenerator.buildXml] at h
  split at h
  · exact Except.noConfusion h
  · rename_i cm hget
    split at h
    · exact Except.noConfusion h
    · rename_i kids hseq
      rw [Except.ok.injEq] at h
      exact ⟨cm, kids, hget, h.symm, seqExcept_ok_forall₂ _ _ _ hseq⟩

/-- The spec's concrete scenario: root `Robot` containing `Engine`
(multiplicity `"1..1"`, resolved to `("1", "1")`) and `Wheel`
(multiplicity `"0..4"`, resolved to `("0", "4")`). -/
def robotModel : Model :=
  [("Robot", ⟨"Robot", true, "", [], [("Engine", "1", "1"), ("Wheel", "0", "4")]⟩),
   ("Engine", ⟨"Engine", false, "", [], []⟩),
   ("Wheel", ⟨"Wheel", false, "", [], []⟩)]

/-! ## Claim C5: depth-first pre-order expansion -/

/-- **C5.**  (1) Every successful expansion of a class node is the node
labelled with the class name whose children are the attribute leaves (one
per attribute, holding the attribute's type as text, in stored order)
followed by exactly one recursively expanded subtree per `child_classes`
entry, in order (`Forall₂`).  (2) The expansion ignores the cardinality
components entirely: rewriting every child reference's `min`/`max` leaves
the result unchanged, so `max_cardinality` never changes the output
structure.  (3) The spec's Robot scenario yields `Robot` with one `Engine`
subtree and one `Wheel` subtree. -/
theorem serialize_tree_preorder :
    (∀ (model : Model) (fuel : Nat) (name : String) (t : XNode),
      ConfigXmlGenerator.buildXml model (fuel + 1) name = .ok t →
      ∃ cm kids, getVal name model = some cm
        ∧ t = .elem name none
            (cm.attributes.map (fun a => .elem a.name (some a.type) []) ++ kids)
        ∧ List.Forall₂ (fun (cr : String × String × String) kid =>
            ConfigXmlGenerator.buildXml model fuel cr.1 = .ok kid)
          cm.child_classes kids)
    ∧ (∀ (f g : String × String × String → String) (model : Model)
        (fuel : Nat) (name : String),
      ConfigXmlGenerator.buildXml (stripCards f g model) fuel name
        = ConfigXmlGenerator.buildXml model fuel name)
    ∧ ConfigXmlGenerator.generate robotModel 3
        = .ok (.elem "Robot" none [.elem "Engine" none [], .elem "Wheel" none []]) := by
  refine ⟨?_, ?_, rfl⟩
  · intro model fuel name t h
    exact buildXml_ok_shape model fuel name t h
  · intro f g model fuel
    induction fuel with
    | zero => intro name; rfl
    | succ fuel ih =>
      intro name
      simp only [ConfigXmlGenerator.buildXml]
      have hget : getVal name (stripCards f g model)
          = (getVal name model).map (classStrip f g) := by
        rw [stripCards]
        exact getVal_mapVals (classStrip f g) name model
      rw [hget]
      rcases hm : getVal name model with _ | cm
      · rfl
      · simp only [Option.map_some']
        have hmap : ((classStrip f g cm).child_classes).map
              (fun cr => ConfigXmlGenerator.buildXml (stripCards f g model) fuel cr.1)
            = cm.child_classes.map
              (fun cr => ConfigXmlGenerator.buildXml model fuel cr.1) := by
          rw [classStrip, List.map_map]
          apply List.map_congr_left
          intro cr hcr
          simp only [Function.comp]
          exact ih cr.1
        rw [hmap]
        rfl

/-- Witness for C5 at the Robot scenario (fuel 3 = 2 + 1): the successful
expansion decomposes as claimed, and stripping cardinalities changes
nothing. -/
theorem serialize_tree_preorder_witness :
    (∃ cm kids, getVal "Robot" robotModel = some cm
      ∧ (XNode.elem "Robot" none [.elem "Engine" none [], .elem "Wheel" none []])
          = .elem "Robot" none
              (cm.attributes.map (fun a => .elem a.name (some a.type) []) ++ kids)
      ∧ List.Forall₂ (fun (cr : String × String × String) kid =>
          ConfigXmlGenerator.buildXml robotModel 2 cr.1 = .ok kid)
        cm.child_classes kids)
    ∧ ConfigXmlGenerator.buildXml
          (stripCards (fun _ => "7") (fun _ => "9") robotModel) 3 "Robot"
        = ConfigXmlGenerator.buildXml robotModel 3 "Robot" :=
  ⟨serialize_tree_preorder.1 robotModel 2 "Robot" _ rfl,
    serialize_tree_preorder.2.1 (fun _ => "7") (fun _ => "9") robotModel 3 "Robot"⟩

/-! ## Claim C10: dangling child references -/

/-- Reachability through `child_classes` edges, starting from a class
name. -/
inductive ReachesFrom (model : Model) : String → String → Prop where
  | refl (n : String) : ReachesFrom model n n
  | step (a b : String) (cm : ClassModel) (cr : String × String × String) :
      getVal a model = some cm → cr ∈ cm.child_classes →
      ReachesFrom model cr.1 b → ReachesFrom model a b

/-- Class `n` exists and has a child reference naming no class of the
model. -/
def danglingAt (model : Model) (n : String) : Prop :=
  ∃ cm, getVal n model = some cm ∧ ∃ cr ∈ cm.child_classes, getVal cr.1 model = none

theorem forall₂_mem_left {α β : Type u} {R : α → β → Prop} :
    ∀ {l : List α} {ys : List β}, List.Forall₂ R l ys →
      ∀ {x}, x ∈ l → ∃ y, R x y := by
  intro l ys h
  induction h with
  | nil => intro x hx; cases hx
  | cons hR hrest ih =>
    intro x hx
    rcases List.mem_cons.mp hx with he | hm
    · exact ⟨_, he ▸ hR⟩
    · exact ih hm

theorem buildXml_ok_descend (model : Model) (a b : String)
    (h : ReachesFrom model a b) :
    ∀ (fuel : Nat) (t : XNode), ConfigXmlGenerator.buildXml model fuel a = .ok t →
    ∃ fuel' t', ConfigXmlGenerator.buildXml model fuel' b = .ok t' := by
  induction h with
  | refl n =>
    intro fuel t ht
    exact ⟨fuel, t, ht⟩
  | step a b cm cr hcm hmem hreach ih =>
    intro fuel t ht
    cases fuel with
    | zero => exact Except.noConfusion ht
    | succ fuel =>
      rcases buildXml_ok_shape model fuel a t ht with ⟨cm', kids, hget, htt, hall⟩
      rw [hcm, Option.some.injEq] at hget
      subst hget
      rcases forall₂_mem_left hall hmem with ⟨kid, hkid⟩
      exact ih fuel kid hkid

theorem buildXml_dangling_not_ok (model : Model) (n : String)
    (hd : danglingAt model n) :
    ∀ (fuel : Nat) (t : XNode), ConfigXmlGenerator.buildXml model fuel n ≠ .ok t := by
  rcases hd with ⟨cm, hcm, cr, hcr, hnone⟩
  intro fuel t ht
  cases fuel with
  | zero => exact Except.noConfusion ht
  | succ fuel =>
    rcases buildXml_ok_shape model fuel n t ht with ⟨cm', kids, hget, htt, hall⟩
    rw [hcm, Option.some.injEq] at hget
    subst hget
    rcases forall₂_mem_left hall hcr with ⟨kid, hkid⟩
    cases fuel with
    | zero => exact Except.noConfusion hkid
    | succ fuel2 =>
      rw [ConfigXmlGenerator.buildXml, hnone] at hkid
      exact Except.noConfusion hkid

/-- **C10.**  (1) The builder's second pass validates only the `target` of
an aggregation: when the target resolves but the `source` names no class,
a child reference to the unknown `source` is still appended, and the
unknown name still resolves to nothing afterwards.  (2) When a class with
such a dangling child reference is reachable from the root's class name,
`generate` never succeeds, and its failure is not the Missing-root error —
a distinct failure mode no validation prevents.  (3) The failure at a
directly dangling first child is precisely the `KeyError` of the unguarded
`model[class_name]` lookup. -/
theorem dangling_child_reference_unchecked :
    (∀ (classes : Model) (s t sm tm : String) (cm : ClassModel),
      getVal t classes = some cm → getVal s classes = none →
      getVal t (ModelParser.applyAgg classes ⟨s, t, sm, tm⟩)
          = some ⟨cm.name, cm.is_root, cm.documentation, cm.attributes,
              cm.child_classes ++ [(s, parseMinMultS sm, parseMaxMultS sm)]⟩
        ∧ getVal s (ModelParser.applyAgg classes ⟨s, t, sm, tm⟩) = none)
    ∧ (∀ (model : Model) (fuel : Nat) (p : String × ClassModel) (n : String),
      model.find? (fun q => q.2.is_root) = some p →
      ReachesFrom model p.2.name n → danglingAt model n →
      (∀ t, ConfigXmlGenerator.generate model fuel ≠ .ok t)
        ∧ ConfigXmlGenerator.generate model fuel ≠ .error .missingRoot)
    ∧ (∀ (model : Model) (fuel : Nat) (name : String) (cm : ClassModel)
        (cr : String × String × String) (rest : List (String × String × String)),
      getVal name model = some cm → cm.child_classes = cr :: rest →
      getVal cr.1 model = none →
      ConfigXmlGenerator.buildXml model (fuel + 2) name = .error (.keyError cr.1)) := by
  refine ⟨?_, ?_, ?_⟩
  · intro classes s t sm tm cm hcm hsn
    have h := applyAgg_known_target classes ⟨s, t, sm, tm⟩ cm hcm
    refine ⟨h.1, ?_⟩
    have hne : s ≠ t := by
      intro he
      rw [he, hcm] at hsn
      exact Option.noConfusion hsn
    rw [h.2 s hne]
    exact hsn
  · intro model fuel p n hfind hreach hdang
    constructor
    · intro t hok
      rw [ConfigXmlGenerator.generate, hfind] at hok
      rcases buildXml_ok_descend model p.2.name n hreach fuel t hok with ⟨fuel', t', h'⟩
      exact buildXml_dangling_not_ok model n hdang fuel' t' h'
    · intro hbad
      rw [ConfigXmlGenerator.generate, hfind] at hbad
      exact buildXml_ne_missingRoot model fuel p.2.name hbad
  · intro model fuel name cm cr rest hget hchild hnone
    show ConfigXmlGenerator.buildXml model (fuel + 1 + 1) name = .error (.keyError cr.1)
    have h1 : ConfigXmlGenerator.buildXml model (fuel + 1) cr.1
        = .error (.keyError cr.1) := by
      rw [ConfigXmlGenerator.buildXml, hnone]
    rw [ConfigXmlGenerator.buildXml]
    simp only [hget]
    rw [hchild, List.map_cons, h1, seqExcept]

/-- The model used to witness C10: root `R` has a child reference to the
undeclared class `Ghost`. -/
def danglingModel : Model := [("R", ⟨"R", true, "", [], [("Ghost", "1", "1")]⟩)]

/-- Witness for C10: resolving an aggregation with unknown source `Ghost`
still appends the dangling reference; on `danglingModel` the generator
never succeeds, does not report Missing-root, and fails with
`keyError "Ghost"`. -/
theorem dangling_child_reference_unchecked_witness :
    getVal "R" (ModelParser.applyAgg [("R", ⟨"R", true, "", [], []⟩)]
        ⟨"Ghost", "R", "1", "1"⟩)
        = some ⟨"R", true, "", [], [("Ghost", "1", "1")]⟩
    ∧ ConfigXmlGenerator.generate danglingModel 5 ≠ .ok (.elem "R" none [])
    ∧ ConfigXmlGenerator.generate danglingModel 5 ≠ .error .missingRoot
    ∧ ConfigXmlGenerator.buildXml danglingModel 2 "R" = .error (.keyError "Ghost") := by
  have h2 := dangling_child_reference_unchecked.2.1 danglingModel 5
    ("R", ⟨"R", true, "", [], [("Ghost", "1", "1")]⟩) "R" rfl
    (ReachesFrom.refl "R")
    ⟨⟨"R", true, "", [], [("Ghost", "1", "1")]⟩, rfl, ("Ghost", "1", "1"), by decide, rfl⟩
  refine ⟨?_, h2.1 _, h2.2, ?_⟩
  · have h1 := (dangling_child_reference_unchecked.1 [("R", ⟨"R", true, "", [], []⟩)]
      "Ghost" "R" "1" "1" ⟨"R", true, "", [], []⟩ rfl rfl).1
    rw [h1]
    decide
  · exact dangling_child_reference_unchecked.2.2 danglingModel 0 "R"
      ⟨"R", true, "", [], [("Ghost", "1", "1")]⟩ ("Ghost", "1", "1") [] rfl rfl rfl
